import Mathlib

/-!
Verification of the site-mirroring engine of `GuiScraper_.py` (class
`ScraperThread`).  URLs and paths are modelled as `List Char`; the Python
standard-library helpers the engine calls (`urllib.parse.urlparse`,
`urllib.parse.urljoin`, `os.path.basename` / `dirname` / `join` / `relpath`,
`str.strip`) are embedded faithfully below, followed by the engine's own
functions (`normalize_url`, `is_valid_url`, `get_relative_path`, `save_page`,
`scrape_page`, `download_resource`, `run`) and theorems about them.
-/

abbrev Chars := List Char

/-- Split a list at the first occurrence of `c`: returns the part before the
first `c` and, when `c` occurs, `some` of the part after it.  This is the
engine of Python's `s.split(c, 1)` / `s.find(c)` idioms. -/
def splitFirst (c : Char) : Chars → Chars × Option Chars
  | [] => ([], none)
  | x :: xs =>
    if x = c then ([], some xs)
    else
      let r := splitFirst c xs
      (x :: r.1, r.2)

/-- Boolean list-prefix test (Python `s.startswith(p)` / `s[:n] == p`). -/
def isPre (p l : Chars) : Bool :=
  match p, l with
  | [], _ => true
  | _ :: _, [] => false
  | a :: ps, b :: ls => a = b && isPre ps ls

/-- Boolean substring test (Python `p in s` on strings). -/
def isSub (p l : Chars) : Bool :=
  match l with
  | [] => p.isEmpty
  | _ :: ls => isPre p l || isSub p ls

/-- Remove every leading occurrence of `c` (Python `s.lstrip(c)`). -/
def lstripChar (c : Char) (l : Chars) : Chars := l.dropWhile (fun x => x = c)

/-- Remove every trailing occurrence of `c` (Python `s.rstrip(c)`). -/
def rstripChar (c : Char) (l : Chars) : Chars :=
  (lstripChar c l.reverse).reverse

/-- Python `s.strip(c)`: remove the character from both ends. -/
def stripChar (c : Char) (l : Chars) : Chars := rstripChar c (lstripChar c l)

/-- Python `s.endswith('/')` for the single character `'/'`. -/
def endsSlash (l : Chars) : Bool := l.getLast? == some '/'

/-- `os.path.basename` on POSIX: everything after the last `'/'`. -/
def basenameP (p : Chars) : Chars :=
  (p.reverse.takeWhile (fun c => !(c == '/'))).reverse

/-- Everything of `p` up to and including the last `'/'` (empty when there is
no slash); the complement of `basenameP`. -/
def upToLastSlash (p : Chars) : Chars :=
  (p.reverse.dropWhile (fun c => !(c == '/'))).reverse

/-- `os.path.dirname` on POSIX. -/
def dirnameP (p : Chars) : Chars :=
  let head := upToLastSlash p
  if head = [] then []
  else if head.all (fun c => c == '/') then head
  else rstripChar '/' head

/-- `os.path.join(a, b)` on POSIX, for two components. -/
def pathJoin (a b : Chars) : Chars :=
  if b.head? = some '/' then b
  else if a = [] || endsSlash a then a ++ b
  else a ++ '/' :: b

/-- Python `s.split(c)`: the result is never empty and keeps empty pieces. -/
def splitChar (c : Char) : Chars → List Chars
  | [] => [[]]
  | x :: xs =>
    if x = c then [] :: splitChar c xs
    else
      match splitChar c xs with
      | [] => [[x]]
      | h :: t => (x :: h) :: t

/-- `'/'.join(l)`. -/
def joinSegs : List Chars → Chars
  | [] => []
  | [x] => x
  | x :: xs => x ++ '/' :: joinSegs xs

/-! ### `urllib.parse.urlparse`

CPython's `urlsplit` detects the scheme and the netloc before splitting off
the fragment, but `'#'` both invalidates a scheme candidate and terminates
the netloc scan, so splitting the fragment off first — as done here — yields
the same components on every input.  The scheme is accepted only when the
text before the first `':'` starts with an ASCII letter and continues with
ASCII alphanumerics or `'+'`/`'-'`/`'.'`; it is lower-cased.  `urlparse`
additionally splits `;params` off the part of the path after its last
slash. -/

structure UrlParts where
  scheme : Chars
  netloc : Chars
  path : Chars
  params : Chars
  query : Chars
  fragment : Chars
deriving DecidableEq

def schemeChar (c : Char) : Bool := c.isAlphanum || c == '+' || c == '-' || c == '.'

/-- Scheme detection of `urlsplit`: on success returns the lower-cased scheme
and the text after the colon, otherwise an empty scheme and the input. -/
def splitScheme (u : Chars) : Chars × Chars :=
  match splitFirst ':' u with
  | (_, none) => ([], u)
  | ([], some _) => ([], u)
  | (c :: cs, some rest) =>
    if c.isAlpha && cs.all schemeChar then ((c :: cs).map Char.toLower, rest)
    else ([], u)

def netlocDelim (c : Char) : Bool := c == '/' || c == '?' || c == '#'

/-- `_splitnetloc`: when the input starts with `"//"`, the netloc is the text
up to the next `'/'`, `'?'` or `'#'`. -/
def splitNetloc (u : Chars) : Chars × Chars :=
  if isPre ("//".data) u then
    let rest := u.drop 2
    (rest.takeWhile (fun c => !(netlocDelim c)), rest.dropWhile (fun c => !(netlocDelim c)))
  else ([], u)

/-- `_splitparams`: split `;params` from the final path segment — the first
`';'` at or after the last `'/'` (or anywhere, when there is no slash). -/
def splitParams (p : Chars) : Chars × Chars :=
  if '/' ∈ p then
    match splitFirst ';' (basenameP p) with
    | (b1, some b2) => (upToLastSlash p ++ b1, b2)
    | (_, none) => (p, [])
  else
    match splitFirst ';' p with
    | (b1, some b2) => (b1, b2)
    | (_, none) => (p, [])

/-- `urllib.parse.urlparse` (fragments allowed, no default scheme). -/
def urlparse (url : Chars) : UrlParts :=
  let fr := splitFirst '#' url
  let frag := fr.2.getD []
  let s1 := splitScheme fr.1
  let n1 := splitNetloc s1.2
  let q1 := splitFirst '?' n1.2
  let query := q1.2.getD []
  let pp := splitParams q1.1
  ⟨s1.1, n1.1, pp.1, pp.2, query, frag⟩

/-- `urlparse` with a default scheme, as `urljoin` uses it: the default is
kept only when the URL itself carries no scheme. -/
def urlparseDef (defaultScheme url : Chars) : UrlParts :=
  let r := urlparse url
  if r.scheme = [] then { r with scheme := defaultScheme } else r

/-! ### `urllib.parse.urljoin` and `urlunparse` -/

/-- `urllib.parse.uses_relative`. -/
def usesRelativeList : List Chars :=
  [[], "ftp".data, "http".data, "gopher".data, "nntp".data, "imap".data,
   "wais".data, "file".data, "https".data, "shttp".data, "mms".data,
   "prospero".data, "rtsp".data, "rtspu".data, "sftp".data, "svn".data,
   "svn+ssh".data, "ws".data, "wss".data]

/-- `urllib.parse.uses_netloc`. -/
def usesNetlocList : List Chars :=
  [[], "ftp".data, "http".data, "gopher".data, "nntp".data, "telnet".data,
   "imap".data, "wais".data, "file".data, "mms".data, "https".data,
   "shttp".data, "snews".data, "prospero".data, "rtsp".data, "rtspu".data,
   "rsync".data, "svn".data, "svn+ssh".data, "sftp".data, "nfs".data,
   "git".data, "git+ssh".data, "ws".data, "wss".data]

/-- `urllib.parse.urlunsplit`. -/
def urlunsplit (scheme netloc u query frag : Chars) : Chars :=
  let u1 :=
    if netloc ≠ [] || (u ≠ [] && isPre ("//".data) u) then
      let u' := if u ≠ [] && !(u.head? == some '/') then '/' :: u else u
      "//".data ++ netloc ++ u'
    else u
  let u2 := if scheme ≠ [] then scheme ++ ':' :: u1 else u1
  let u3 := if query ≠ [] then u2 ++ '?' :: query else u2
  if frag ≠ [] then u3 ++ '#' :: frag else u3

/-- `urllib.parse.urlunparse`. -/
def urlunparse (c : UrlParts) : Chars :=
  let u := if c.params ≠ [] then c.path ++ ';' :: c.params else c.path
  urlunsplit c.scheme c.netloc u c.query c.fragment

/-- `urljoin`'s `segments[1:-1] = filter(None, segments[1:-1])`: drop empty
segments except in the first and last position. -/
def keepLastFilterEmpty : List Chars → List Chars
  | [] => []
  | [y] => [y]
  | y :: ys => if y = [] then keepLastFilterEmpty ys else y :: keepLastFilterEmpty ys

def mergeSegments : List Chars → List Chars
  | [] => []
  | [x] => [x]
  | x :: xs => x :: keepLastFilterEmpty xs

/-- `urljoin`'s resolution loop: `'..'` pops (ignoring pops of an empty
stack), `'.'` is dropped, anything else is pushed. -/
def resolveSegs : List Chars → List Chars → List Chars
  | [], acc => acc
  | seg :: rest, acc =>
    if seg = "..".data then resolveSegs rest acc.dropLast
    else if seg = ".".data then resolveSegs rest acc
    else resolveSegs rest (acc ++ [seg])

/-- `urllib.parse.urljoin(base, url)`. -/
def urljoin (base url : Chars) : Chars :=
  if base = [] then url
  else if url = [] then base
  else
    let b := urlparse base
    let r := urlparseDef b.scheme url
    if !(r.scheme == b.scheme) || !(usesRelativeList.contains r.scheme) then url
    else if usesNetlocList.contains r.scheme && r.netloc ≠ [] then urlunparse r
    else
      let netloc := if usesNetlocList.contains r.scheme then b.netloc else r.netloc
      if r.path = [] && r.params = [] then
        let query := if r.query = [] then b.query else r.query
        urlunparse ⟨r.scheme, netloc, b.path, b.params, query, r.fragment⟩
      else
        let baseParts0 := splitChar '/' b.path
        let baseParts := if baseParts0.getLast? = some [] then baseParts0 else baseParts0.dropLast
        let segments :=
          if r.path.head? = some '/' then splitChar '/' r.path
          else mergeSegments (baseParts ++ splitChar '/' r.path)
        let resolved0 := resolveSegs segments []
        let resolved :=
          if segments.getLast? = some (".".data) || segments.getLast? = some ("..".data)
          then resolved0 ++ [[]] else resolved0
        let newPath := if joinSegs resolved = [] then "/".data else joinSegs resolved
        urlunparse ⟨r.scheme, netloc, newPath, r.params, r.query, r.fragment⟩

/-! ### `os.path.relpath` -/

/-- Path segments as `posixpath.relpath` sees them after `abspath`: split on
`'/'`, dropping empty segments (the `if x` filter) and `'.'` segments (which
`normpath` removes).  This models `relpath`'s view of a relative path free of
`'..'` segments; every path the engine passes comes from a URL path resolved
by `urljoin`, which eliminates dot segments, and the common working-directory
prefix `abspath` prepends to both arguments cancels in the common-prefix
computation below. -/
def pathSegs (p : Chars) : List Chars :=
  (splitChar '/' p).filter (fun s => !(s.isEmpty) && !(s == ".".data))

def commonPrefixLen : List Chars → List Chars → Nat
  | a :: as, b :: bs => if a = b then commonPrefixLen as bs + 1 else 0
  | _, _ => 0

/-- `posixpath.relpath(path, start)` for the dot-free relative paths the
engine produces (see `pathSegs`). -/
def relpath (path start : Chars) : Chars :=
  let sl := pathSegs start
  let pl := pathSegs path
  let i := commonPrefixLen sl pl
  let rel := List.replicate (sl.length - i) ("..".data) ++ pl.drop i
  if rel = [] then ".".data else joinSegs rel

/-! ### The engine's pure helpers (`ScraperThread`) -/

/-- `url.split('#')[0]`, as `normalize_url` computes it. -/
def stripFragmentStr (url : Chars) : Chars := (splitFirst '#' url).1

def hasDot (l : Chars) : Bool := l.contains '.'

/-- `ScraperThread.normalize_url`: drop the fragment; return as-is when the
parsed path is empty or `"/"`; append `'/'` to the fragment-stripped string
when the final path segment has no dot and the path does not already end in
`'/'`. -/
def normalizeUrl (url : Chars) : Chars :=
  let parsed := urlparse url
  let w := stripFragmentStr url
  if parsed.path = [] || parsed.path = "/".data then w
  else if !(hasDot (basenameP parsed.path)) && !(endsSlash parsed.path) then w ++ "/".data
  else w

/-- `ScraperThread.is_valid_url`: the candidate's netloc equals the netloc of
`self.base_url` (the seed). -/
def isValidUrl (baseUrl url : Chars) : Bool :=
  (urlparse url).netloc == (urlparse baseUrl).netloc

/-- The shared path-normalization step of `get_relative_path`: strip `'/'`
from both ends, then append `index.html` when the result is empty, ends in
`'/'`, or has no dot in its base name. -/
def toIndexedPath (p0 : Chars) : Chars :=
  let p := stripChar '/' p0
  if p = [] || endsSlash p then pathJoin p ("index.html".data)
  else if !(hasDot (basenameP p)) then pathJoin p ("index.html".data)
  else p

/-- `ScraperThread.get_relative_path` on the two parsed paths: normalize both
ends to mapped file paths, then the relative path from the directory of the
source file to the target file, with backslashes replaced by `'/'`. -/
def relFromPaths (fromPath toPath : Chars) : Chars :=
  let fp := toIndexedPath fromPath
  let tp := toIndexedPath toPath
  (relpath tp (dirnameP fp)).map (fun c => if c == '\\' then '/' else c)

/-- `ScraperThread.get_relative_path`: reads only `urlparse(...).path` of its
two arguments. -/
def getRelativePath (fromUrl toUrl : Chars) : Chars :=
  relFromPaths (urlparse fromUrl).path (urlparse toUrl).path

/-- The file-path mapping of `ScraperThread.save_page` on a parsed URL path:
`path = parsed.path.strip('/')`; `None` when `'.git'` is one of its slash
segments; otherwise append `index.html` when the stripped path is empty,
ends in `'/'`, or its base name has no dot. -/
def savePathOfPath (raw : Chars) : Option Chars :=
  let p := stripChar '/' raw
  if (splitChar '/' p).contains (".git".data) then none
  else if p = [] || endsSlash p then some (pathJoin p ("index.html".data))
  else if !(hasDot (basenameP p)) then some (pathJoin p ("index.html".data))
  else some p

/-- The relative file path `save_page` writes under the output directory. -/
def savePageRelPath (url : Chars) : Option Chars := savePathOfPath (urlparse url).path

/-- Modelled from the spec's words for the Path Mapper (§4.3, claim C5):
"Strip leading `/` from the URL path.  If the resulting path is empty, ends
in `/`, or its final segment has no extension (no `.` in the base name),
append a literal `index.html` segment"; in every other case the stripped
path itself.  Stated for comparison with `savePageRelPath`, which is the
embedding of the code. -/
def savePathClaimed (url : Chars) : Chars :=
  let p := lstripChar '/' (urlparse url).path
  if p = [] || endsSlash p || !(hasDot (basenameP p)) then pathJoin p ("index.html".data)
  else p

/-- The amended description of `save_page`'s path mapping: the code strips
`'/'` from BOTH ends of the URL path (so a stripped path never ends in
`'/'`), and appends `index.html` exactly when the stripped path is empty or
its base name has no dot. -/
def savePathAmended (url : Chars) : Option Chars :=
  let p := stripChar '/' (urlparse url).path
  if (splitChar '/' p).contains (".git".data) then none
  else if p = [] || !(hasDot (basenameP p)) then some (pathJoin p ("index.html".data))
  else some p

/-- One attribute rewrite inside `save_page` (the same statement sequence is
used for anchor `href`, image `src`, stylesheet `href` and script `src`):
skip when `'.git'` occurs in the raw reference, otherwise resolve against the
page URL and, when the absolute URL is in scope, replace the value by
`get_relative_path(page, absolute)`. -/
def rewriteHref (baseUrl pageUrl href : Chars) : Chars :=
  if isSub (".git".data) href then href
  else
    let au := urljoin pageUrl href
    if isValidUrl baseUrl au then getRelativePath pageUrl au else href

/-- Progress messages `save_page` can emit that the claims refer to. -/
inductive LogMsg where
  | warnCouldNotFix (url : Chars) (err : Chars)
deriving DecidableEq

/-- `ScraperThread.save_page`, with the BeautifulSoup parse-and-rewrite block
abstracted as `transform` (it applies `rewriteHref` attribute by attribute;
parsing itself is outside the embedding).  Returns `none` for `'.git'` paths
(nothing written), otherwise the mapped relative path, the bytes written and
the emitted warnings.  The `try`/`except` around the transform means any
transform failure leaves `content` at its original value, emits a warning and
still writes the file; `save_page` itself then returns normally, so the crawl
continues. -/
def savePage (transform : Chars → Except Chars Chars) (url content : Chars)
    (isHtml : Bool) : Option (Chars × Chars × List LogMsg) :=
  match savePageRelPath url with
  | none => none
  | some p =>
    if isHtml then
      match transform content with
      | Except.ok c2 => some (p, c2, [])
      | Except.error e => some (p, content, [LogMsg.warnCouldNotFix url e])
    else some (p, content, [])

/-! ### The traversal (`scrape_page`, `download_resource`, `run`)

The network and BeautifulSoup's extraction are abstracted: a `Web` maps a URL
to `none` (the request raises — caught, branch abandoned) or to the lists of
raw `a`/`img`/`link rel=stylesheet`/`script` attribute values found in the
response, in document order.  The state carries the visited set and the
cooperative `is_running` flag; nothing in the crawl mutates the flag, which
models any execution in which the flag has its value at the boundaries where
the code polls it.  A fetch event is recorded exactly where the code calls
`self.session.get`.  The Python recursion terminates only through the visited
set; the embedding carries explicit fuel, which can only truncate the event
trace, so the safety theorems below hold for every fuel. -/

structure Page where
  links : List Chars
  imgs : List Chars
  css : List Chars
  js : List Chars
deriving DecidableEq

abbrev Web := Chars → Option Page

structure CrawlOptions where
  maxDepth : Nat
  downloadImages : Bool
  downloadCss : Bool
  downloadJs : Bool
deriving DecidableEq

structure CrawlState where
  visited : List Chars
  running : Bool
deriving DecidableEq

inductive Event where
  | pageFetch (url : Chars) (depth : Nat)
  | resourceFetch (url : Chars)
deriving DecidableEq

/-- `ScraperThread.download_resource`: skip when the (raw) URL is already in
the visited set; skip when `'.git'` occurs in its parsed path; only then
normalize, add the normalized URL to the visited set, and issue the request
for it. -/
def downloadResource (s : CrawlState) (url : Chars) : CrawlState × List Event :=
  if url ∈ s.visited then (s, [])
  else if isSub (".git".data) (urlparse url).path then (s, [])
  else
    let u := normalizeUrl url
    (⟨u :: s.visited, s.running⟩, [Event.resourceFetch u])

/-- One of `scrape_page`'s three resource loops (images / stylesheets /
scripts): each iteration aborts when the running flag is cleared, `continue`s
on `'.git'` in the raw attribute value, resolves the value against the page
URL and calls `download_resource` when the result is in scope. -/
def resourceLoop (baseUrl : Chars) (s : CrawlState) (pageUrl : Chars) :
    List Chars → CrawlState × List Event
  | [] => (s, [])
  | src :: rest =>
    if s.running = false then (s, [])
    else if isSub (".git".data) src then resourceLoop baseUrl s pageUrl rest
    else
      let ru := urljoin pageUrl src
      if isValidUrl baseUrl ru then
        let r1 := downloadResource s ru
        let r2 := resourceLoop baseUrl r1.1 pageUrl rest
        (r2.1, r1.2 ++ r2.2)
      else resourceLoop baseUrl s pageUrl rest

/-- `scrape_page`'s anchor loop, parameterized by the recursive call at the
next depth: abort when the flag is cleared; `continue` on `'.git'`, on
fragment-only and on `javascript:` references; resolve, normalize, and
recurse when in scope and not yet visited. -/
def scrapeLinksF (baseUrl : Chars)
    (recur : CrawlState → Chars → Nat → CrawlState × List Event)
    (s : CrawlState) (pageUrl : Chars) (hrefs : List Chars) (depth : Nat) :
    CrawlState × List Event :=
  match hrefs with
  | [] => (s, [])
  | href :: rest =>
    if s.running = false then (s, [])
    else if isSub (".git".data) href then scrapeLinksF baseUrl recur s pageUrl rest depth
    else if isPre ("#".data) href || isPre ("javascript:".data) href then
      scrapeLinksF baseUrl recur s pageUrl rest depth
    else
      let au := normalizeUrl (urljoin pageUrl href)
      if isValidUrl baseUrl au && !(s.visited.contains au) then
        let r1 := recur s au (depth + 1)
        let r2 := scrapeLinksF baseUrl recur r1.1 pageUrl rest depth
        (r2.1, r1.2 ++ r2.2)
      else scrapeLinksF baseUrl recur s pageUrl rest depth

/-- `ScraperThread.scrape_page`: return when the flag is cleared; normalize;
return on a duplicate, on `depth > max_depth` (checked before marking
visited), or on `'.git'` in the parsed path; mark visited, fetch, and — on a
successful response — recurse over the anchors and run the enabled resource
loops. -/
def scrapePage (web : Web) (opts : CrawlOptions) (baseUrl : Chars) :
    Nat → CrawlState → Chars → Nat → CrawlState × List Event
  | 0, s, _, _ => (s, [])
  | fuel + 1, s, url0, depth =>
    if s.running = false then (s, [])
    else
      let url := normalizeUrl url0
      if url ∈ s.visited then (s, [])
      else if opts.maxDepth < depth then (s, [])
      else if isSub (".git".data) (urlparse url).path then (s, [])
      else
        let s1 : CrawlState := ⟨url :: s.visited, s.running⟩
        match web url with
        | none => (s1, [Event.pageFetch url depth])
        | some page =>
          let r1 := scrapeLinksF baseUrl (scrapePage web opts baseUrl fuel) s1 url page.links depth
          let r2 := if opts.downloadImages then resourceLoop baseUrl r1.1 url page.imgs else (r1.1, [])
          let r3 := if opts.downloadCss then resourceLoop baseUrl r2.1 url page.css else (r2.1, [])
          let r4 := if opts.downloadJs then resourceLoop baseUrl r3.1 url page.js else (r3.1, [])
          (r4.1, Event.pageFetch url depth :: (r1.2 ++ r2.2 ++ r3.2 ++ r4.2))

structure RunResult where
  finalState : CrawlState
  events : List Event
  finishedCount : Nat
deriving DecidableEq

/-- `ScraperThread.run`: crawl from `base_url` at depth 0, then emit
`finished(len(self.visited))` when still running and `finished(0)` after a
stop request. -/
def runCrawl (web : Web) (opts : CrawlOptions) (baseUrl : Chars) (fuel : Nat)
    (s : CrawlState) : RunResult :=
  let r := scrapePage web opts baseUrl fuel s baseUrl 0
  ⟨r.1, r.2, if r.1.running then r.1.visited.length else 0⟩

/-! ### Concrete instances used by the witnesses -/

/-- A web where every request fails. -/
def webNone : Web := fun _ => none

def optsW : CrawlOptions := ⟨3, true, true, true⟩

def optsD0 : CrawlOptions := ⟨0, true, true, true⟩

/-- A state after a stop request, with five URLs already visited. -/
def stateStopped : CrawlState :=
  ⟨["http://h/a".data, "http://h/b".data, "http://h/c".data,
    "http://h/d".data, "http://h/e".data], false⟩

/-- A markup transform that always fails, standing for a raising
BeautifulSoup parse/serialize. -/
def failTransform : Chars → Except Chars Chars := fun _ => Except.error ("boom".data)

/-! ## Lemmas about the split helpers -/

theorem splitFirst_of_not_mem {c : Char} : ∀ {l : Chars}, c ∉ l → splitFirst c l = (l, none)
  | [], _ => rfl
  | x :: xs, h => by
    have hx : ¬ x = c := fun he => h (he ▸ List.mem_cons_self x xs)
    have ht : c ∉ xs := fun hm => h (List.mem_cons_of_mem x hm)
    simp [splitFirst, hx, splitFirst_of_not_mem ht]

theorem splitFirst_not_mem_of_none {c : Char} : ∀ {l : Chars},
    (splitFirst c l).2 = none → c ∉ l
  | [], _ => List.not_mem_nil c
  | x :: xs, h => by
    by_cases hx : x = c
    · simp [splitFirst, hx] at h
    · simp only [splitFirst, if_neg hx] at h
      have ht := splitFirst_not_mem_of_none (l := xs) h
      simp only [List.mem_cons, not_or]
      exact ⟨fun he => hx he.symm, ht⟩

theorem splitFirst_fst_of_none {c : Char} : ∀ {l : Chars},
    (splitFirst c l).2 = none → (splitFirst c l).1 = l
  | [], _ => rfl
  | x :: xs, h => by
    by_cases hx : x = c
    · simp [splitFirst, hx] at h
    · simp only [splitFirst, if_neg hx] at h ⊢
      simp [splitFirst_fst_of_none (l := xs) h]

theorem splitFirst_fst_not_mem (c : Char) : ∀ l : Chars, c ∉ (splitFirst c l).1
  | [] => List.not_mem_nil c
  | x :: xs => by
    by_cases hx : x = c
    · simp [splitFirst, hx]
    · simp only [splitFirst, if_neg hx, List.mem_cons]
      push_neg
      exact ⟨fun he => hx he.symm, splitFirst_fst_not_mem c xs⟩

theorem splitFirst_decomp_of_some {c : Char} : ∀ {l r : Chars},
    (splitFirst c l).2 = some r → l = (splitFirst c l).1 ++ c :: r
  | [], r, h => by simp [splitFirst] at h
  | x :: xs, r, h => by
    by_cases hx : x = c
    · simp only [splitFirst, if_pos hx] at h ⊢
      simp_all
    · simp only [splitFirst, if_neg hx] at h ⊢
      simpa using splitFirst_decomp_of_some (l := xs) h

theorem splitFirst_fst_is_front (c : Char) (l : Chars) :
    ∃ t, l = (splitFirst c l).1 ++ t := by
  cases h : (splitFirst c l).2 with
  | none => exact ⟨[], by simp [splitFirst_fst_of_none h]⟩
  | some r => exact ⟨c :: r, splitFirst_decomp_of_some h⟩

theorem splitFirst_append_of_not_mem {c : Char} {xs : Chars} (h : c ∉ xs) (ys : Chars) :
    splitFirst c (xs ++ ys) = (xs ++ (splitFirst c ys).1, (splitFirst c ys).2) := by
  induction xs with
  | nil => simp
  | cons x xt ih =>
    have hx : ¬ x = c := fun he => h (he ▸ List.mem_cons_self x xt)
    have ht : c ∉ xt := fun hm => h (List.mem_cons_of_mem x hm)
    simp [splitFirst, hx, ih ht]

theorem splitFirst_append_of_some {c : Char} : ∀ {l r : Chars},
    (splitFirst c l).2 = some r → ∀ ys : Chars,
    splitFirst c (l ++ ys) = ((splitFirst c l).1, some (r ++ ys))
  | [], r, h => by simp [splitFirst] at h
  | x :: xs, r, h => by
    intro ys
    by_cases hx : x = c
    · simp only [splitFirst, if_pos hx] at h ⊢
      simp_all
    · simp only [splitFirst, if_neg hx] at h ⊢
      simp [List.cons_append, splitFirst, hx,
        splitFirst_append_of_some (l := xs) h ys]

theorem isPre_append {p : Chars} : ∀ {l : Chars}, isPre p l = true →
    ∀ t : Chars, isPre p (l ++ t) = true := by
  induction p with
  | nil => intro l _ t; rfl
  | cons a ps ih =>
    intro l h t
    cases l with
    | nil => simp [isPre] at h
    | cons b ls =>
      simp only [isPre, Bool.and_eq_true] at h
      simp [isPre, h.1, ih h.2 t]

theorem isSub_nil_left : ∀ t : Chars, isSub [] t = true
  | [] => rfl
  | _ :: ts => by simp [isSub, isPre, isSub_nil_left ts]

theorem isSub_append {p : Chars} : ∀ {l : Chars}, isSub p l = true →
    ∀ t : Chars, isSub p (l ++ t) = true := by
  intro l
  induction l with
  | nil =>
    intro h t
    have : p = [] := by simpa [isSub, List.isEmpty_iff] using h
    simp [this, isSub_nil_left]
  | cons x ls ih =>
    intro h t
    simp only [isSub, Bool.or_eq_true] at h
    rcases h with h | h
    · have h2 := isPre_append (l := x :: ls) h t
      simp only [List.cons_append] at h2
      simp [isSub, h2]
    · simp [isSub, ih h t]

/-! ## Appending a trailing slash and the `urlparse` pipeline

`normalize_url` appends `'/'` to the whole fragment-stripped URL string.
The lemmas below track what that does to each stage of `urlparse`, ending in
`urlparse_path_append_slash`: the parsed path either is unchanged (the slash
lands in the query) or gains a suffix. -/

theorem takeWhile_dropWhile_append_single {p : Char → Bool} {d : Char} (h : p d = false) :
    ∀ l : Chars, (l ++ [d]).takeWhile p = l.takeWhile p ∧
      (l ++ [d]).dropWhile p = l.dropWhile p ++ [d]
  | [] => by simp [List.takeWhile, List.dropWhile, h]
  | x :: xs => by
    by_cases hx : p x = true
    · have ih := takeWhile_dropWhile_append_single h xs
      simp [List.takeWhile_cons, List.dropWhile_cons, hx, ih.1, ih.2]
    · simp [List.takeWhile_cons, List.dropWhile_cons, hx]

theorem splitScheme_append_slash (v : Chars) :
    splitScheme (v ++ ['/']) = ((splitScheme v).1, (splitScheme v).2 ++ ['/']) := by
  rcases hv : splitFirst ':' v with ⟨a, b⟩
  cases b with
  | none =>
    have hb : (splitFirst ':' v).2 = none := by rw [hv]
    have ha : a = v := by
      have := splitFirst_fst_of_none hb
      rw [hv] at this; exact this
    subst ha
    have hnm : ':' ∉ a := splitFirst_not_mem_of_none hb
    have e1 : splitFirst ':' (a ++ ['/']) = (a ++ ['/'], none) :=
      splitFirst_of_not_mem (by simp [hnm])
    simp [splitScheme, hv, e1]
  | some r =>
    have hb : (splitFirst ':' v).2 = some r := by rw [hv]
    have e1 := splitFirst_append_of_some hb ['/']
    rw [hv] at e1
    cases a with
    | nil => simp [splitScheme, hv, e1]
    | cons c cs =>
      by_cases hval : (c.isAlpha && cs.all schemeChar) = true
      · simp [splitScheme, hv, e1, hval]
      · simp [splitScheme, hv, e1, hval]

theorem isPre_two_slash {r : Chars} (h : isPre ("//".data) r = true) :
    ∃ t, r = '/' :: '/' :: t := by
  have hd : "//".data = ['/', '/'] := rfl
  rw [hd] at h
  match r with
  | [] => simp [isPre] at h
  | [a] => simp [isPre] at h
  | a :: b :: t =>
    simp only [isPre, Bool.and_eq_true, decide_eq_true_eq] at h
    exact ⟨t, by rw [← h.1, ← h.2.1]⟩

theorem splitNetloc_append_slash {r : Chars} (h : r ≠ ['/']) :
    splitNetloc (r ++ ['/']) = ((splitNetloc r).1, (splitNetloc r).2 ++ ['/']) := by
  by_cases hp : isPre ("//".data) r = true
  · obtain ⟨t, rfl⟩ := isPre_two_slash hp
    have hp2 : isPre ("//".data) ('/' :: '/' :: t ++ ['/']) = true :=
      isPre_append hp ['/']
    have htd := takeWhile_dropWhile_append_single
      (p := fun c => !(netlocDelim c)) (d := '/') (by decide) t
    unfold splitNetloc
    rw [if_pos hp2, if_pos hp]
    simp [htd.1, htd.2]
  · have hp' : isPre ("//".data) r = false := by
      cases hx : isPre ("//".data) r
      · rfl
      · exact absurd hx hp
    have hp2 : isPre ("//".data) (r ++ ['/']) = false := by
      have hd : "//".data = ['/', '/'] := rfl
      rw [hd] at hp' ⊢
      match r, h, hp' with
      | [], _, _ => decide
      | [a], h, _ =>
        have ha : a ≠ '/' := fun he => h (by rw [he])
        have ha2 : ('/' = a) = False := eq_false (fun he => ha he.symm)
        simp [isPre, ha2]
      | a :: b :: t, _, hp' =>
        simp only [List.cons_append, isPre] at hp' ⊢
        simpa using hp'
    unfold splitNetloc
    rw [if_neg (by simp [hp2]), if_neg (by simp [hp'])]

theorem basenameP_append_slash (l : Chars) : basenameP (l ++ ['/']) = [] := by
  simp [basenameP, List.reverse_append]

theorem upTo_append_basename (p : Chars) : upToLastSlash p ++ basenameP p = p := by
  unfold upToLastSlash basenameP
  rw [← List.reverse_append, List.takeWhile_append_dropWhile, List.reverse_reverse]

theorem splitParams_fst_is_front (p : Chars) : ∃ t, p = (splitParams p).1 ++ t := by
  unfold splitParams
  by_cases hc : '/' ∈ p
  · rcases hb : splitFirst ';' (basenameP p) with ⟨b1, b2o⟩
    cases b2o with
    | none => exact ⟨[], by simp [hc, hb]⟩
    | some b2 =>
      have hd : (splitFirst ';' (basenameP p)).2 = some b2 := by rw [hb]
      have hdec := splitFirst_decomp_of_some hd
      rw [hb] at hdec
      have hdec2 : basenameP p = b1 ++ ';' :: b2 := hdec
      refine ⟨';' :: b2, ?_⟩
      rw [if_pos hc]
      show p = (upToLastSlash p ++ b1) ++ ';' :: b2
      rw [List.append_assoc, ← hdec2, upTo_append_basename]
  · rcases hb : splitFirst ';' p with ⟨b1, b2o⟩
    cases b2o with
    | none => exact ⟨[], by simp [hc, hb]⟩
    | some b2 =>
      have hd : (splitFirst ';' p).2 = some b2 := by rw [hb]
      have hdec := splitFirst_decomp_of_some hd
      rw [hb] at hdec
      have hdec2 : p = b1 ++ ';' :: b2 := hdec
      refine ⟨';' :: b2, ?_⟩
      rw [if_neg hc]
      exact hdec2

theorem urlparse_stripFragment (url : Chars) :
    urlparse (stripFragmentStr url) = { urlparse url with fragment := [] } := by
  have h1 : splitFirst '#' ((splitFirst '#' url).1) = ((splitFirst '#' url).1, none) :=
    splitFirst_of_not_mem (splitFirst_fst_not_mem '#' url)
  simp [urlparse, stripFragmentStr, h1]

theorem urlparse_path_pipeline {w w1 s1 r1 : Chars} {fo : Option Chars}
    (hfr : splitFirst '#' w = (w1, fo)) (hs : splitScheme w1 = (s1, r1)) :
    (urlparse w).path = (splitParams (splitFirst '?' (splitNetloc r1).2).1).1 := by
  simp [urlparse, hfr, hs]

theorem urlparse_path_append_slash {w : Chars} (hp : (urlparse w).path ≠ ['/']) :
    ∃ t, (urlparse (w ++ ['/'])).path = (urlparse w).path ++ t := by
  rcases hfr : splitFirst '#' w with ⟨w1, fo⟩
  cases fo with
  | some f =>
    have hb : (splitFirst '#' w).2 = some f := by rw [hfr]
    have e1 := splitFirst_append_of_some hb ['/']
    rw [hfr] at e1
    rcases hs : splitScheme w1 with ⟨s1, r1⟩
    refine ⟨[], ?_⟩
    rw [urlparse_path_pipeline e1 hs, urlparse_path_pipeline hfr hs, List.append_nil]
  | none =>
    have hb : (splitFirst '#' w).2 = none := by rw [hfr]
    have hw1 : w1 = w := by
      have := splitFirst_fst_of_none hb
      rw [hfr] at this; exact this
    subst hw1
    have hnm : '#' ∉ w1 := splitFirst_not_mem_of_none hb
    have e1 : splitFirst '#' (w1 ++ ['/']) = (w1 ++ ['/'], none) :=
      splitFirst_of_not_mem (by simp [hnm])
    rcases hs : splitScheme w1 with ⟨s1, r1⟩
    have e2 := splitScheme_append_slash w1
    rw [hs] at e2
    have hr1 : r1 ≠ ['/'] := by
      intro hh
      apply hp
      rw [urlparse_path_pipeline hfr hs, hh]
      rfl
    have e3 := splitNetloc_append_slash hr1
    rcases hn : splitNetloc r1 with ⟨nl, r2⟩
    rw [hn] at e3
    rcases hq : splitFirst '?' r2 with ⟨qp, qo⟩
    cases qo with
    | some q =>
      have hb2 : (splitFirst '?' r2).2 = some q := by rw [hq]
      have e4 := splitFirst_append_of_some hb2 ['/']
      rw [hq] at e4
      refine ⟨[], ?_⟩
      rw [urlparse_path_pipeline e1 e2, urlparse_path_pipeline hfr hs,
        e3, e4, hn, hq, List.append_nil]
    | none =>
      have hb2 : (splitFirst '?' r2).2 = none := by rw [hq]
      have hqp : qp = r2 := by
        have := splitFirst_fst_of_none hb2
        rw [hq] at this; exact this
      subst hqp
      have hnm2 : '?' ∉ qp := splitFirst_not_mem_of_none hb2
      have e4 : splitFirst '?' (qp ++ ['/']) = (qp ++ ['/'], none) :=
        splitFirst_of_not_mem (by simp [hnm2])
      have e5 : splitParams (qp ++ ['/']) = (qp ++ ['/'], []) := by
        have hbn : basenameP (qp ++ ['/']) = [] := basenameP_append_slash qp
        have hcc : '/' ∈ qp ++ ['/'] := by simp
        simp [splitParams, hcc, hbn, splitFirst]
      obtain ⟨t0, ht0⟩ := splitParams_fst_is_front qp
      refine ⟨t0 ++ ['/'], ?_⟩
      rw [urlparse_path_pipeline e1 e2, urlparse_path_pipeline hfr hs, e3, e4, hn, hq]
      simp only [e5]
      rw [← List.append_assoc, ← ht0]

theorem urlparse_path_stripFragment (url : Chars) :
    (urlparse (stripFragmentStr url)).path = (urlparse url).path := by
  rw [urlparse_stripFragment]

/-- `'.git' in urlparse(url).path` is preserved by `normalize_url`: the
normalized URL is the fragment-stripped string, possibly with `'/'`
appended, and neither step can remove a `'.git'` occurrence from the parsed
path. -/
theorem isSub_git_path_normalize {url : Chars}
    (h : isSub (".git".data) (urlparse url).path = true) :
    isSub (".git".data) (urlparse (normalizeUrl url)).path = true := by
  have hsf := urlparse_path_stripFragment url
  simp only [normalizeUrl]
  split
  · rw [hsf]; exact h
  · split
    · rename_i hc1 hc2
      have hne : (urlparse (stripFragmentStr url)).path ≠ ['/'] := by
        rw [hsf]
        intro he
        exact hc1 (by simp [he])
      obtain ⟨t, ht⟩ := urlparse_path_append_slash hne
      have hslash : stripFragmentStr url ++ "/".data = stripFragmentStr url ++ ['/'] := rfl
      rw [hslash, ht, hsf]
      exact isSub_append h t
    · rw [hsf]; exact h

/-! ## `str.strip('/')` never leaves a trailing slash -/

theorem head_dropWhile_false {p : Char → Bool} : ∀ {l : Chars} {a : Char},
    (l.dropWhile p).head? = some a → p a = false
  | [], a, h => by simp at h
  | x :: xs, a, h => by
    by_cases hx : p x = true
    · rw [List.dropWhile_cons_of_pos hx] at h
      exact head_dropWhile_false h
    · rw [List.dropWhile_cons_of_neg hx] at h
      simp only [List.head?_cons, Option.some.injEq] at h
      rw [← h]
      exact Bool.eq_false_iff.mpr hx

theorem endsSlash_stripChar (l : Chars) :
    stripChar '/' l = [] ∨ endsSlash (stripChar '/' l) = false := by
  unfold stripChar rstripChar
  cases hd : lstripChar '/' (lstripChar '/' l).reverse with
  | nil => left; rfl
  | cons a t =>
    right
    have ha := head_dropWhile_false (p := fun x => decide (x = '/'))
      (l := (lstripChar '/' l).reverse) (a := a)
      (by unfold lstripChar; unfold lstripChar at hd; rw [hd]; rfl)
    have ha2 : ¬ a = '/' := by simpa using ha
    unfold endsSlash
    rw [List.getLast?_reverse]
    simp [ha2]

/-! ## Lemmas about the traversal -/

theorem downloadResource_events {s : CrawlState} {url : Chars} {e : Event}
    (he : e ∈ (downloadResource s url).2) : ∃ u, e = Event.resourceFetch u := by
  unfold downloadResource at he
  split at he
  · simp at he
  · split at he
    · simp at he
    · exact ⟨normalizeUrl url, by simpa using he⟩

theorem resourceLoop_events {baseUrl pageUrl : Chars} {e : Event} :
    ∀ (srcs : List Chars) (s : CrawlState),
    e ∈ (resourceLoop baseUrl s pageUrl srcs).2 → ∃ u, e = Event.resourceFetch u := by
  intro srcs
  induction srcs with
  | nil => intro s he; simp [resourceLoop] at he
  | cons src rest ih =>
    intro s he
    simp only [resourceLoop] at he
    split at he
    · simp at he
    · split at he
      · exact ih s he
      · split at he
        · simp only [List.mem_append] at he
          rcases he with he | he
          · exact downloadResource_events he
          · exact ih _ he
        · exact ih s he

theorem scrapeLinksF_pageFetch_le {baseUrl : Chars} {M : Nat}
    {recur : CrawlState → Chars → Nat → CrawlState × List Event}
    (hr : ∀ s u d u2 d2, Event.pageFetch u2 d2 ∈ (recur s u d).2 → d2 ≤ M) :
    ∀ (hrefs : List Chars) (s : CrawlState) (pageUrl : Chars) (depth : Nat)
      (u2 : Chars) (d2 : Nat),
    Event.pageFetch u2 d2 ∈ (scrapeLinksF baseUrl recur s pageUrl hrefs depth).2 →
    d2 ≤ M := by
  intro hrefs
  induction hrefs with
  | nil => intro s pageUrl depth u2 d2 he; simp [scrapeLinksF] at he
  | cons href rest ih =>
    intro s pageUrl depth u2 d2 he
    simp only [scrapeLinksF] at he
    split at he
    · simp at he
    · split at he
      · exact ih s pageUrl depth u2 d2 he
      · split at he
        · exact ih s pageUrl depth u2 d2 he
        · split at he
          · simp only [List.mem_append] at he
            rcases he with he | he
            · exact hr _ _ _ _ _ he
            · exact ih _ pageUrl depth u2 d2 he
          · exact ih s pageUrl depth u2 d2 he

theorem scrapePage_pageFetch_le (web : Web) (opts : CrawlOptions) (baseUrl : Chars) :
    ∀ (fuel : Nat) (s : CrawlState) (url : Chars) (depth : Nat) (u2 : Chars) (d2 : Nat),
    Event.pageFetch u2 d2 ∈ (scrapePage web opts baseUrl fuel s url depth).2 →
    d2 ≤ opts.maxDepth := by
  intro fuel
  induction fuel with
  | zero => intro s url depth u2 d2 he; simp [scrapePage] at he
  | succ n ih =>
    intro s url depth u2 d2 he
    simp only [scrapePage] at he
    split at he
    · simp at he
    · split at he
      · simp at he
      · split at he
        · simp at he
        · rename_i hndep
          split at he
          · simp at he
          · split at he
            · simp at he
              obtain ⟨-, rfl⟩ := he
              omega
            · dsimp only at he
              simp only [List.mem_cons, List.mem_append] at he
              rcases he with he | (((he | he) | he) | he)
              · obtain ⟨-, rfl⟩ := Event.pageFetch.inj he
                omega
              · exact scrapeLinksF_pageFetch_le
                  (fun s u d u2 d2 hm => ih s u d u2 d2 hm) _ _ _ _ _ _ he
              · split at he
                · obtain ⟨u, hu⟩ := resourceLoop_events _ _ he
                  simp at hu
                · simp at he
              · split at he
                · obtain ⟨u, hu⟩ := resourceLoop_events _ _ he
                  simp at hu
                · simp at he
              · split at he
                · obtain ⟨u, hu⟩ := resourceLoop_events _ _ he
                  simp at hu
                · simp at he

/-! ## `javascript:` references through `urlparse` and `urljoin` -/

theorem urlparse_javascript {rest : Chars} (hr : isPre ("//".data) rest = false) :
    (urlparse ("javascript:".data ++ rest)).scheme = "javascript".data ∧
    (urlparse ("javascript:".data ++ rest)).netloc = [] := by
  have hnm : '#' ∉ "javascript:".data := by decide
  have e1 := splitFirst_append_of_not_mem hnm rest
  have hjs : "javascript:".data ++ (splitFirst '#' rest).1
      = "javascript".data ++ ':' :: (splitFirst '#' rest).1 := rfl
  have hnm2 : ':' ∉ "javascript".data := by decide
  have e2tail : splitFirst ':' (':' :: (splitFirst '#' rest).1)
      = ([], some ((splitFirst '#' rest).1)) := by simp [splitFirst]
  have e2 := splitFirst_append_of_not_mem hnm2 (':' :: (splitFirst '#' rest).1)
  rw [e2tail] at e2
  simp only [List.append_nil] at e2
  have hs : splitScheme ("javascript:".data ++ (splitFirst '#' rest).1)
      = ("javascript".data, (splitFirst '#' rest).1) := by
    rw [hjs]
    unfold splitScheme
    rw [e2]
    rfl
  have hnpre : isPre ("//".data) ((splitFirst '#' rest).1) = false := by
    cases hx : isPre ("//".data) ((splitFirst '#' rest).1)
    · rfl
    · exfalso
      obtain ⟨t, ht⟩ := splitFirst_fst_is_front '#' rest
      have h2 := isPre_append hx t
      rw [← ht] at h2
      rw [h2] at hr
      exact Bool.noConfusion hr
  have hnl : splitNetloc ((splitFirst '#' rest).1) = ([], (splitFirst '#' rest).1) := by
    unfold splitNetloc
    rw [if_neg (by simp [hnpre])]
  constructor
  · simp only [urlparse]
    rw [e1]
    dsimp only
    rw [hs]
  · simp only [urlparse]
    rw [e1]
    dsimp only
    rw [hs]
    dsimp only
    rw [hnl]

/-! ## The claims -/

/-- C1: the spec's no-revisit invariant fails in `download_resource`: the
visited-set check uses the raw URL and normalization happens only
afterwards, so two raw spellings of one normalized URL (here with and
without a fragment) each pass the check and the same normalized URL
`http://h/a.png` is requested twice in one run. -/
theorem c1_download_resource_refetches_same_normalized_url :
    (downloadResource ⟨[], true⟩ ("http://h/a.png".data)).2
      = [Event.resourceFetch ("http://h/a.png".data)] ∧
    (downloadResource (downloadResource ⟨[], true⟩ ("http://h/a.png".data)).1
        ("http://h/a.png#x".data)).2
      = [Event.resourceFetch ("http://h/a.png".data)] := by
  decide

/-- C2: `normalize_url` is not idempotent on a URL with a query string and a
dotless final path segment: it appends `'/'` to the whole URL string, after
the query, and a second application appends another slash. -/
theorem c2_normalize_url_not_idempotent_on_query :
    normalizeUrl ("http://example.com/docs?q=1".data)
      = "http://example.com/docs?q=1/".data ∧
    normalizeUrl (normalizeUrl ("http://example.com/docs?q=1".data))
      = "http://example.com/docs?q=1//".data ∧
    normalizeUrl (normalizeUrl ("http://example.com/docs?q=1".data))
      ≠ normalizeUrl ("http://example.com/docs?q=1".data) := by
  decide

/-- C3: once the cancellation flag is cleared, `scrape_page` returns at its
first check before any fetch, every resource loop returns at the top of its
next iteration, and `run` emits the distinct stopped outcome `finished(0)`
instead of the visited count. -/
theorem c3_cancellation_stops_fetches_and_reports_zero
    (web : Web) (opts : CrawlOptions) (baseUrl : Chars) (fuel : Nat)
    (s : CrawlState) (url pageUrl : Chars) (depth : Nat) (srcs : List Chars)
    (h : s.running = false) :
    scrapePage web opts baseUrl fuel s url depth = (s, []) ∧
    resourceLoop baseUrl s pageUrl srcs = (s, []) ∧
    (runCrawl web opts baseUrl fuel s).finishedCount = 0 := by
  have h1 : ∀ (f : Nat) (u : Chars) (d : Nat),
      scrapePage web opts baseUrl f s u d = (s, []) := by
    intro f u d
    cases f with
    | zero => rfl
    | succ n => simp [scrapePage, h]
  refine ⟨h1 fuel url depth, ?_, ?_⟩
  · cases srcs with
    | nil => rfl
    | cons a t => simp [resourceLoop, h]
  · simp [runCrawl, h1 fuel baseUrl 0, h]

/-- C4: `scrape_page` called with `depth > max_depth` returns before
fetching and before marking the URL visited (the state is unchanged), and
every page fetched anywhere in the recursion happens at a depth of at most
`max_depth`. -/
theorem c4_depth_bound (web : Web) (opts : CrawlOptions) (baseUrl : Chars)
    (fuel : Nat) (s : CrawlState) (url : Chars) (depth : Nat) :
    (opts.maxDepth < depth → scrapePage web opts baseUrl fuel s url depth = (s, [])) ∧
    (∀ u d, Event.pageFetch u d ∈ (scrapePage web opts baseUrl fuel s url depth).2 →
      d ≤ opts.maxDepth) := by
  constructor
  · intro h
    cases fuel with
    | zero => rfl
    | succ n => simp [scrapePage, h]
  · intro u d he
    exact scrapePage_pageFetch_le web opts baseUrl fuel s url depth u d he

/-- C5 counterexample: on `http://h/style.css/` the claimed rule (strip the
leading slash only; append `index.html` when the path ends in `'/'`) gives
`style.css/index.html`, but `save_page` strips the trailing slash as well
and writes to `style.css`. -/
theorem c5_counterexample :
    savePageRelPath ("http://h/style.css/".data) = some ("style.css".data) ∧
    savePathClaimed ("http://h/style.css/".data) = "style.css/index.html".data ∧
    savePageRelPath ("http://h/style.css/".data)
      ≠ some (savePathClaimed ("http://h/style.css/".data)) := by
  decide

/-- C5 (amended): `save_page` strips `'/'` from both ends of the URL path,
so the stripped path never ends in `'/'`, and it appends `index.html`
exactly when the stripped path is empty or its base name has no dot. -/
theorem c5_amended_path_rule (url : Chars) :
    savePageRelPath url = savePathAmended url := by
  unfold savePageRelPath savePathOfPath savePathAmended
  rcases endsSlash_stripChar (urlparse url).path with hz | hz
  · simp [hz]
  · by_cases hp : stripChar '/' (urlparse url).path = []
    · simp [hp]
    · simp [hz, hp]

/-- C6 counterexample: `save_page`'s rewrite loops have no fragment-only
skip, so the attribute value `#s` on a page at `http://h/` resolves to the
page itself, passes the scope check, and is replaced by `index.html` — the
saved output does not contain the original value. -/
theorem c6_counterexample :
    rewriteHref ("http://h/".data) ("http://h/".data) ("#s".data)
      = "index.html".data ∧
    rewriteHref ("http://h/".data) ("http://h/".data) ("#s".data) ≠ "#s".data := by
  decide

/-- C6 (amended): script-protocol references are left untouched by the save
transform whenever the text after `javascript:` does not itself start with
`"//"` (they resolve with an empty netloc and fail the scope check);
fragment-only references, by contrast, are rewritten (see the
counterexample). -/
theorem c6_amended_untouched_refs (baseUrl pageUrl rest : Chars)
    (hb : (urlparse baseUrl).netloc ≠ [])
    (hr : isPre ("//".data) rest = false) :
    rewriteHref baseUrl pageUrl ("javascript:".data ++ rest)
      = "javascript:".data ++ rest := by
  obtain ⟨hsch, hnl⟩ := urlparse_javascript hr
  have hau : urljoin pageUrl ("javascript:".data ++ rest)
      = "javascript:".data ++ rest := by
    by_cases hpu : pageUrl = []
    · simp [urljoin, hpu]
    · have hne : ("javascript:".data ++ rest) ≠ [] := by simp
      have hrs : (urlparseDef (urlparse pageUrl).scheme
          ("javascript:".data ++ rest)).scheme = "javascript".data := by
        simp only [urlparseDef]
        split
        · rename_i hz
          rw [hsch] at hz
          exact absurd hz (by decide)
        · exact hsch
      have hcon : usesRelativeList.contains (urlparseDef (urlparse pageUrl).scheme
          ("javascript:".data ++ rest)).scheme = false := by
        rw [hrs]; decide
      simp only [urljoin]
      rw [if_neg hpu, if_neg hne, hcon]
      simp
  by_cases hgit : isSub (".git".data) ("javascript:".data ++ rest) = true
  · unfold rewriteHref
    rw [if_pos hgit]
  · have hval : isValidUrl baseUrl ("javascript:".data ++ rest) = false := by
      unfold isValidUrl
      rw [hnl]
      cases hx : (urlparse baseUrl).netloc with
      | nil => exact absurd hx hb
      | cons a t => rfl
    simp only [rewriteHref]
    rw [if_neg hgit, hau]
    exact if_neg (by simpa using hval)

/-- C7: a failure of the markup parse/rewrite/serialize block inside
`save_page` is non-fatal: the exception is caught, the warning is emitted,
and the original unrewritten content is written to the mapped file path;
`save_page` returns normally, so the crawl continues past the URL. -/
theorem c7_transform_failure_nonfatal (transform : Chars → Except Chars Chars)
    (url content p e : Chars)
    (hp : savePageRelPath url = some p)
    (he : transform content = Except.error e) :
    savePage transform url content true
      = some (p, content, [LogMsg.warnCouldNotFix url e]) := by
  simp [savePage, hp, he]

/-- C8: a URL whose parsed path contains `'.git'` is neither fetched nor
added to the visited set: `scrape_page` returns with the state unchanged
and no fetch event (its check runs on the normalized URL, which preserves
the occurrence), and `download_resource` likewise returns on its raw-path
check before normalizing, marking or fetching. -/
theorem c8_git_never_fetched_nor_visited (web : Web) (opts : CrawlOptions)
    (baseUrl : Chars) (fuel : Nat) (s : CrawlState) (url : Chars) (depth : Nat)
    (h : isSub (".git".data) (urlparse url).path = true) :
    scrapePage web opts baseUrl fuel s url depth = (s, []) ∧
    downloadResource s url = (s, []) := by
  constructor
  · cases fuel with
    | zero => rfl
    | succ n => simp [scrapePage, isSub_git_path_normalize h]
  · simp [downloadResource, h]

/-- C9: `is_valid_url` depends only on the netloc of its argument — two
URLs with equal netlocs get the same verdict whatever their scheme, path,
query or fragment — and it returns true exactly when the argument's netloc
equals the seed's netloc. -/
theorem c9_scope_depends_only_on_netloc (baseUrl u1 u2 : Chars) :
    ((urlparse u1).netloc = (urlparse u2).netloc →
      isValidUrl baseUrl u1 = isValidUrl baseUrl u2) ∧
    (isValidUrl baseUrl u1 = true ↔ (urlparse u1).netloc = (urlparse baseUrl).netloc) := by
  constructor
  · intro h
    unfold isValidUrl
    rw [h]
  · simp [isValidUrl]

/-- C10 (implicit): the file-path mapping and the relative-link computation
read only `urlparse(...).path` of a URL, so two URLs with equal paths and
different query strings map to the same file (last write wins) and to the
same relative reference, in either argument position. -/
theorem c10_path_only_dependence (u1 u2 f g : Chars)
    (h : (urlparse u1).path = (urlparse u2).path) :
    savePageRelPath u1 = savePageRelPath u2 ∧
    getRelativePath f u1 = getRelativePath f u2 ∧
    getRelativePath u1 g = getRelativePath u2 g := by
  refine ⟨?_, ?_, ?_⟩ <;> simp [savePageRelPath, getRelativePath, h]

/-! ## Witnesses -/

/-- Witness for C3: a stopped state with five visited URLs crawls nothing
and reports 0. -/
theorem c3_witness :
    stateStopped.running = false ∧
    scrapePage webNone optsW ("http://h/".data) 5 stateStopped ("http://h/".data) 0
      = (stateStopped, []) ∧
    (runCrawl webNone optsW ("http://h/".data) 5 stateStopped).finishedCount = 0 := by
  refine ⟨rfl, ?_, ?_⟩
  · exact (c3_cancellation_stops_fetches_and_reports_zero webNone optsW
      ("http://h/".data) 5 stateStopped ("http://h/".data) ("http://h/".data) 0 [] rfl).1
  · exact (c3_cancellation_stops_fetches_and_reports_zero webNone optsW
      ("http://h/".data) 5 stateStopped ("http://h/".data) ("http://h/".data) 0 [] rfl).2.2

/-- Witness for C4: with `max_depth = 0`, a call at depth 1 does nothing. -/
theorem c4_witness :
    optsD0.maxDepth < 1 ∧
    scrapePage webNone optsD0 ("http://h/".data) 4 ⟨[], true⟩ ("http://h/x".data) 1
      = (⟨[], true⟩, []) :=
  ⟨by decide, (c4_depth_bound webNone optsD0 ("http://h/".data) 4 ⟨[], true⟩
    ("http://h/x".data) 1).1 (by decide)⟩

/-- Witness for C6 (amended): `javascript:void(0)` survives the rewrite. -/
theorem c6_witness :
    (urlparse ("http://h/".data)).netloc ≠ [] ∧
    isPre ("//".data) ("void(0)".data) = false ∧
    rewriteHref ("http://h/".data) ("http://h/page".data)
        ("javascript:".data ++ "void(0)".data)
      = "javascript:".data ++ "void(0)".data :=
  ⟨by decide, by decide,
    c6_amended_untouched_refs ("http://h/".data) ("http://h/page".data)
      ("void(0)".data) (by decide) (by decide)⟩

/-- Witness for C7: a failing transform leaves the original bytes, emits
the warning, and the save still happens at the mapped path. -/
theorem c7_witness :
    savePageRelPath ("http://h/a".data) = some ("a/index.html".data) ∧
    failTransform ("body".data) = Except.error ("boom".data) ∧
    savePage failTransform ("http://h/a".data) ("body".data) true
      = some ("a/index.html".data, "body".data,
          [LogMsg.warnCouldNotFix ("http://h/a".data) ("boom".data)]) :=
  ⟨by decide, rfl,
    c7_transform_failure_nonfatal failTransform ("http://h/a".data) ("body".data)
      ("a/index.html".data) ("boom".data) (by decide) rfl⟩

/-- Witness for C8: `http://h/.git/config` is neither crawled nor
downloaded. -/
theorem c8_witness :
    isSub (".git".data) ((urlparse ("http://h/.git/config".data)).path) = true ∧
    scrapePage webNone optsW ("http://h/".data) 3 ⟨[], true⟩
      ("http://h/.git/config".data) 0 = (⟨[], true⟩, []) ∧
    downloadResource ⟨[], true⟩ ("http://h/.git/config".data) = (⟨[], true⟩, []) := by
  refine ⟨by decide, ?_, ?_⟩
  · exact (c8_git_never_fetched_nor_visited webNone optsW ("http://h/".data) 3
      ⟨[], true⟩ ("http://h/.git/config".data) 0 (by decide)).1
  · exact (c8_git_never_fetched_nor_visited webNone optsW ("http://h/".data) 3
      ⟨[], true⟩ ("http://h/.git/config".data) 0 (by decide)).2

/-- Witness for C9: an `http` URL with a query and an `https` URL with a
fragment on the same host get the same verdict, and the verdict is the
netloc comparison. -/
theorem c9_witness :
    (urlparse ("http://h/a?q=1".data)).netloc = (urlparse ("https://h/b#f".data)).netloc ∧
    isValidUrl ("http://h/".data) ("http://h/a?q=1".data)
      = isValidUrl ("http://h/".data) ("https://h/b#f".data) ∧
    (isValidUrl ("http://h/".data) ("http://h/a?q=1".data) = true ↔
      (urlparse ("http://h/a?q=1".data)).netloc = (urlparse ("http://h/".data)).netloc) := by
  refine ⟨by decide, ?_, ?_⟩
  · exact (c9_scope_depends_only_on_netloc ("http://h/".data) ("http://h/a?q=1".data)
      ("https://h/b#f".data)).1 (by decide)
  · exact (c9_scope_depends_only_on_netloc ("http://h/".data) ("http://h/a?q=1".data)
      ("https://h/b#f".data)).2

/-- Witness for C10: the same path with and without a query maps to the
same file and the same relative reference. -/
theorem c10_witness :
    (urlparse ("http://h/p/q".data)).path = (urlparse ("http://h/p/q?x=2".data)).path ∧
    savePageRelPath ("http://h/p/q".data) = savePageRelPath ("http://h/p/q?x=2".data) ∧
    getRelativePath ("http://h/".data) ("http://h/p/q".data)
      = getRelativePath ("http://h/".data) ("http://h/p/q?x=2".data) := by
  refine ⟨by decide, ?_, ?_⟩
  · exact (c10_path_only_dependence ("http://h/p/q".data) ("http://h/p/q?x=2".data)
      ("http://h/".data) ("http://h/".data) (by decide)).1
  · exact (c10_path_only_dependence ("http://h/p/q".data) ("http://h/p/q?x=2".data)
      ("http://h/".data) ("http://h/".data) (by decide)).2.1
